import Mathlib

/-!
Verification of the CIDR block allocator implemented in `src/vpc-setup.py`.

The allocator works on IPv4 CIDR blocks stored in a DynamoDB table
(`ip_allocations`), keyed by the canonical CIDR string.  We embed a CIDR
block as its network address (a natural number) together with its prefix
length; the canonical string `a.b.c.d/len` used by the script is computed
by `cidrString`.  The DynamoDB item is embedded as `Item` (the attributes
the script reads or writes), the table as an association list `Ledger`,
`update_item` (create-or-overwrite `SET` semantics) as `upsertWith`,
`delete_item` as `deleteKey`, and the `scan` with its filter expression as
`scanForSize`.  The widening search loop, the `cidr_slicing` function, the
two allocation branches of the automatic path and the manual-CIDR path are
translated line by line from the script.
-/

namespace IPAM

/-- An IPv4 CIDR block: network address and prefix length.  The script
represents blocks by their canonical string (for example `10.0.0.0/20`);
address and prefix length determine that string (`cidrString`). -/
structure Block where
  addr : Nat
  plen : Nat
deriving DecidableEq

/-- Number of addresses covered by a block. -/
def blockSize (b : Block) : Nat := 2 ^ (32 - b.plen)

/-- Membership of an address in the range of a block. -/
def inRange (b : Block) (x : Nat) : Prop := b.addr ≤ x ∧ x < b.addr + blockSize b

/-- The address ranges of two blocks do not overlap. -/
def rangesDisj (b c : Block) : Prop :=
  b.addr + blockSize b ≤ c.addr ∨ c.addr + blockSize c ≤ b.addr

instance (b c : Block) : Decidable (rangesDisj b c) := by
  unfold rangesDisj; infer_instance

instance (b : Block) (x : Nat) : Decidable (inRange b x) := by
  unfold inRange; infer_instance

/-- Dotted-quad rendering of an IPv4 address, as `ipaddress` prints it. -/
def ipDots (a : Nat) : String :=
  Nat.repr (a / 16777216 % 256) ++ "." ++ Nat.repr (a / 65536 % 256) ++ "." ++
    Nat.repr (a / 256 % 256) ++ "." ++ Nat.repr (a % 256)

/-- The canonical (compressed) CIDR string of a block, as produced by
`ipaddress.IPv4Network(...).compressed`. -/
def cidrString (b : Block) : String :=
  ipDots b.addr ++ ("/" ++ Nat.repr b.plen)

/-- Python `s[-3:]`: the last three characters of a string (the script uses
`network[-3:]` to derive the stored `size` attribute from a CIDR string). -/
def strLast3 (s : String) : String := String.mk (s.data.drop (s.data.length - 3))

/-- `startsWithChars n h` decides whether `n` is an initial segment of `h`. -/
def startsWithChars : List Char → List Char → Bool
  | [], _ => true
  | _ :: _, [] => false
  | a :: s, b :: t => a == b && startsWithChars s t

/-- `hasSubstr n h` decides whether `n` occurs contiguously inside `h`. -/
def hasSubstr (needle : List Char) : List Char → Bool
  | [] => needle.isEmpty
  | c :: t => startsWithChars needle (c :: t) || hasSubstr needle t

/-- Python `needle in hay` on strings (line 174 of the script). -/
def containsSub (needle hay : String) : Bool := hasSubstr needle.data hay.data

/-- The size string `"/" + str(n)` (the script's `ip_allocation` format). -/
def ipAllocStr (n : Nat) : String := "/" ++ Nat.repr n

/-- The size-validation regular expression of line 76, `^/[1-2][0-9]$`. -/
def ip_re_match (s : String) : Bool :=
  match s.data with
  | ['/', c1, c2] => (c1 == '1' || c1 == '2') && (decide ('0' ≤ c2) && decide (c2 ≤ '9'))
  | _ => false

/-- The attributes of an `ip_allocations` item that the script reads or
writes.  `none` means the attribute is absent from the item. -/
structure Item where
  size : Option String
  availability : Option String
  region : Option String
  account_id : Option String
  config_options : Option String
deriving DecidableEq

/-- A freshly created item before any `SET` clause is applied. -/
def emptyItem : Item := ⟨none, none, none, none, none⟩

/-- The `ip_allocations` table: items keyed by CIDR block. -/
abbrev Ledger := List (Block × Item)

/-- The keys (CIDR blocks) currently present in the ledger. -/
def keysOf (L : Ledger) : List Block := L.map (fun e => e.1)

/-- Fetch the item stored under a key. -/
def lookupItem (L : Ledger) (k : Block) : Option Item :=
  match L with
  | [] => none
  | e :: t => if e.1 == k then some e.2 else lookupItem t k

/-- DynamoDB `update_item`: apply the `SET` clauses `f` to the existing item
under `k`, or create the item (from an empty one) when the key is absent. -/
def upsertWith (L : Ledger) (k : Block) (f : Item → Item) : Ledger :=
  match L with
  | [] => [(k, f emptyItem)]
  | e :: t => if e.1 == k then (k, f e.2) :: t else e :: upsertWith t k f

/-- DynamoDB `delete_item`: remove the item under `k` (idempotent). -/
def deleteKey (L : Ledger) (k : Block) : Ledger :=
  L.filter (fun e => !(e.1 == k))

/-- The `scan` of the automatic path with filter expression
`#size = :size and availability = :availability and #region = :region`
(availability fixed to `available`). -/
def scanForSize (L : Ledger) (sz rg : String) : List (Block × Item) :=
  L.filter (fun e =>
    e.2.size == some sz && e.2.availability == some ("available") && e.2.region == some rg)

/-- The widening search loop of lines 148-169: scan for the current netmask;
on an empty result decrement the netmask and retry, giving up (with the
"Not able to find an appropriately sized CIDR" exit) once the next netmask
would fall below 16.  Returns the scanned netmasks in order together with
`Items[0]` of the first non-empty scan (`none` encodes the pool-exhausted
exit). -/
def findFreeFrom (L : Ledger) (rg : String) : Nat → List Nat × Option (Block × Item)
  | 0 =>
    match scanForSize L (ipAllocStr 0) rg with
    | e :: _ => ([0], some e)
    | [] => ([0], none)
  | m + 1 =>
    match scanForSize L (ipAllocStr (m + 1)) rg with
    | e :: _ => ([m + 1], some e)
    | [] =>
      if m + 1 ≤ 16 then ([m + 1], none)
      else
        ((m + 1) :: (findFreeFrom L rg m).1, (findFreeFrom L rg m).2)

/-- The while loop of `cidr_slicing` (lines 120-127), with `d` the number of
remaining iterations (`prefixlen_diff - (i - 1)`).  Each iteration halves the
current block, records the first half, and continues with the second half;
the final iteration also records the second half. -/
def slicingAux : Nat → Block → List Block
  | 0, _ => []
  | d + 1, b =>
    let fh : Block := ⟨b.addr, b.plen + 1⟩
    let sh : Block := ⟨b.addr + 2 ^ (31 - b.plen), b.plen + 1⟩
    if d = 0 then [fh, sh] else fh :: slicingAux d sh

/-- `cidr_slicing(ip_block, netmask)` of lines 115-129. -/
def cidr_slicing (b : Block) (netmask : Nat) : List Block :=
  slicingAux (netmask - b.plen) b

/-- Python `l[-2]`: the second-to-last element (the script's
`network_list[-2]`), failing like the `IndexError` on short lists. -/
def pyNeg2 (l : List Block) : Option Block :=
  if 2 ≤ l.length then l[l.length - 2]? else none

/-- The sibling-insert `update_item` of lines 194-207:
`SET #size = :size, availability = :availability, #region = :region`
with `:size` equal to the last three characters of the CIDR string. -/
def siblingWrite (rg : String) (b : Block) (it : Item) : Item :=
  { it with size := some (strLast3 (cidrString b)),
            availability := some ("available"),
            region := some rg }

/-- The claimed-block `update_item` of lines 210-225: sets all five
attributes, marking the block `in-use`. -/
def claimWrite (b : Block) (acct rg cfg : String) (_ : Item) : Item :=
  ⟨some (strLast3 (cidrString b)), some ("in-use"), some rg, some acct, some cfg⟩

/-- The exact-match `update_item` of lines 177-186: sets only availability,
account and config options (size and region are left as stored). -/
def directWrite (acct cfg : String) (it : Item) : Item :=
  { it with availability := some ("in-use"),
            account_id := some acct,
            config_options := some cfg }

/-- The sibling-insert loop of lines 192-207: write every slice into the
table as `available` (this is the ledger state reached after the loop and
before the claimed block is updated). -/
def insertSlices (rg : String) (L : Ledger) (chain : List Block) : Ledger :=
  chain.foldl (fun acc c => upsertWith acc c (siblingWrite rg c)) L

/-- The slicing branch of the automatic path (lines 188-233): insert every
slice as `available`, mark `network_list[-2]` as `in-use`, then delete the
consumed parent block.  `none` encodes the `IndexError` Python would raise
on `network_list[-2]` when the slice list has fewer than two elements. -/
def splitPath (L : Ledger) (b : Block) (netmask : Nat) (rg acct cfg : String) :
    Option (Block × Ledger) :=
  match pyNeg2 (cidr_slicing b netmask) with
  | none => none
  | some claimed =>
    some (claimed,
      deleteKey
        (upsertWith (insertSlices rg L (cidr_slicing b netmask)) claimed
          (claimWrite claimed acct rg cfg)) b)

/-- The automatic allocation path (lines 132-233): widening search, then
either the exact-match branch (when `ip_allocation in ip_block`) or the
slicing branch.  Returns the claimed block (`new_cidr`) and the final
ledger; `none` encodes the pool-exhausted exit or the `IndexError`. -/
def allocAuto (L : Ledger) (desired : Nat) (rg acct cfg : String) :
    Option (Block × Ledger) :=
  match (findFreeFrom L rg desired).2 with
  | none => none
  | some e =>
    if containsSub (ipAllocStr desired) (cidrString e.1) then
      some (e.1, upsertWith L e.1 (directWrite acct cfg))
    else
      splitPath L e.1 desired rg acct cfg

/-- The manual-CIDR path of lines 236-257: a single unconditional
`update_item` on the supplied key, setting all five attributes; note that
the stored `size` is the requested `ip_allocation`, not derived from the
key. -/
def manualClaim (L : Ledger) (mcidr : Block) (ipAlloc rg acct cfg : String) : Ledger :=
  upsertWith L mcidr (fun _ => ⟨some ipAlloc, some ("in-use"), some rg, some acct, some cfg⟩)

/-- One automatic allocation request. -/
structure Request where
  desired : Nat
  rg : String
  acct : String
  cfg : String

/-- A sequence of automatic allocation runs, each executed against the
ledger left by the previous one; `none` as soon as one run fails. -/
def runAll (rs : List Request) (L : Ledger) : Option Ledger :=
  match rs with
  | [] => some L
  | r :: t =>
    match allocAuto L r.desired r.rg r.acct r.cfg with
    | none => none
    | some (_, L2) => runAll t L2

/-- No two ledger records cover overlapping address ranges. -/
def LedgerDisj (L : Ledger) : Prop := (keysOf L).Pairwise rangesDisj

instance (L : Ledger) : Decidable (LedgerDisj L) := by
  unfold LedgerDisj; infer_instance

/-- The scenario pool block `10.0.0.0/20` (10.0.0.0 is 167772160). -/
def b20 : Block := ⟨167772160, 20⟩

/-- The scenario item: `10.0.0.0/20`, available, region `us-west-2`. -/
def item20 : Item := ⟨some ("/20"), some ("available"), some ("us-west-2"), none, none⟩

/-- The scenario pool: a single available `10.0.0.0/20` in `us-west-2`. -/
def scenarioLedger : Ledger := [(b20, item20)]

/-! ### Basic range lemmas -/

theorem blockSize_pos (b : Block) : 0 < blockSize b := Nat.pos_pow_of_pos _ (by norm_num)

theorem inRange_self (b : Block) : inRange b b.addr :=
  ⟨Nat.le_refl _, Nat.lt_add_of_pos_right (blockSize_pos b)⟩

theorem rangesDisj_symm {b c : Block} (h : rangesDisj b c) : rangesDisj c b := Or.symm h

theorem rangesDisj_irrefl (b : Block) : ¬ rangesDisj b b := by
  have := blockSize_pos b
  unfold rangesDisj
  omega

theorem not_common_of_disj {b c : Block} {x : Nat} (h : rangesDisj b c)
    (hx : inRange b x) (hy : inRange c x) : False := by
  unfold rangesDisj at h
  unfold inRange at hx hy
  omega

theorem common_of_not_disj {b c : Block} (h : ¬ rangesDisj b c) :
    ∃ x, inRange b x ∧ inRange c x := by
  have hb := blockSize_pos b
  have hc := blockSize_pos c
  unfold rangesDisj at h
  push_neg at h
  rcases le_total b.addr c.addr with hle | hle
  · exact ⟨c.addr, by unfold inRange; omega, by unfold inRange; omega⟩
  · exact ⟨b.addr, by unfold inRange; omega, by unfold inRange; omega⟩

/-- Halving a block of prefix length below 32 splits its range exactly into
the two halves used by `slicingAux`. -/
theorem range_split (b : Block) (h : b.plen + 1 ≤ 32) (x : Nat) :
    inRange b x ↔
      inRange ⟨b.addr, b.plen + 1⟩ x ∨ inRange ⟨b.addr + 2 ^ (31 - b.plen), b.plen + 1⟩ x := by
  have h1 : 32 - b.plen = (31 - b.plen) + 1 := by omega
  have h2 : 32 - (b.plen + 1) = 31 - b.plen := by omega
  simp only [inRange, blockSize, h1, h2, pow_succ]
  omega

theorem halves_disj (b : Block) (h : b.plen + 1 ≤ 32) :
    rangesDisj ⟨b.addr, b.plen + 1⟩ ⟨b.addr + 2 ^ (31 - b.plen), b.plen + 1⟩ := by
  have h2 : 32 - (b.plen + 1) = 31 - b.plen := by omega
  simp only [rangesDisj, blockSize, h2]
  omega

/-! ### Structure of the slice list -/

theorem slicingAux_one (b : Block) :
    slicingAux 1 b = [⟨b.addr, b.plen + 1⟩, ⟨b.addr + 2 ^ (31 - b.plen), b.plen + 1⟩] := by
  simp [slicingAux]

theorem slicingAux_succ (d : Nat) (b : Block) (h : d ≠ 0) :
    slicingAux (d + 1) b =
      Block.mk b.addr (b.plen + 1) :: slicingAux d ⟨b.addr + 2 ^ (31 - b.plen), b.plen + 1⟩ := by
  simp [slicingAux, h]

theorem slicingAux_length : ∀ (d : Nat) (b : Block), 1 ≤ d → (slicingAux d b).length = d + 1 := by
  intro d
  induction d with
  | zero => intro b h; omega
  | succ k ih =>
    intro b _
    rcases Nat.eq_zero_or_pos k with hk | hk
    · subst hk; simp [slicingAux_one]
    · rw [slicingAux_succ k b (by omega)]
      simp [ih _ hk]

theorem slicingAux_plen_mem : ∀ (d : Nat) (b : Block), ∀ c ∈ slicingAux d b,
    b.plen + 1 ≤ c.plen ∧ c.plen ≤ b.plen + d := by
  intro d
  induction d with
  | zero => intro b c hc; simp [slicingAux] at hc
  | succ k ih =>
    intro b c hc
    rcases Nat.eq_zero_or_pos k with hk | hk
    · subst hk
      rw [slicingAux_one] at hc
      simp only [List.mem_cons, List.not_mem_nil, or_false] at hc
      rcases hc with rfl | rfl
      · refine ⟨le_refl _, ?_⟩
        show b.plen + 1 ≤ b.plen + 1
        omega
      · refine ⟨le_refl _, ?_⟩
        show b.plen + 1 ≤ b.plen + 1
        omega
    · rw [slicingAux_succ k b (by omega)] at hc
      simp only [List.mem_cons] at hc
      rcases hc with rfl | hc
      · constructor
        · exact le_refl _
        · show b.plen + 1 ≤ b.plen + (k + 1)
          omega
      · have h2 : b.plen + 1 + 1 ≤ c.plen ∧ c.plen ≤ b.plen + 1 + k :=
          ih ⟨b.addr + 2 ^ (31 - b.plen), b.plen + 1⟩ c hc
        omega

theorem slicingAux_cover : ∀ (d : Nat) (b : Block), 1 ≤ d → b.plen + d ≤ 32 →
    ∀ x, (inRange b x ↔ ∃ c ∈ slicingAux d b, inRange c x) := by
  intro d
  induction d with
  | zero => intro b h; omega
  | succ k ih =>
    intro b _ h32 x
    rcases Nat.eq_zero_or_pos k with hk | hk
    · subst hk
      rw [slicingAux_one]
      simp only [List.mem_cons, List.not_mem_nil, or_false, exists_eq_or_imp, exists_eq_left]
      exact range_split b (by omega) x
    · rw [slicingAux_succ k b (by omega)]
      simp only [List.mem_cons, exists_eq_or_imp]
      rw [range_split b (by omega) x]
      constructor
      · rintro (h | h)
        · exact Or.inl h
        · exact Or.inr ((ih _ hk (by simp; omega) x).mp h)
      · rintro (h | h)
        · exact Or.inl h
        · exact Or.inr ((ih _ hk (by simp; omega) x).mpr h)

theorem slicingAux_pairwise : ∀ (d : Nat) (b : Block), b.plen + d ≤ 32 →
    (slicingAux d b).Pairwise rangesDisj := by
  intro d
  induction d with
  | zero => intro b _; simp [slicingAux]
  | succ k ih =>
    intro b h32
    rcases Nat.eq_zero_or_pos k with hk | hk
    · subst hk
      rw [slicingAux_one]
      exact List.Pairwise.cons (by
        intro c hc
        simp at hc
        subst hc
        exact halves_disj b (by omega)) (List.pairwise_singleton _ _)
    · rw [slicingAux_succ k b (by omega)]
      refine List.Pairwise.cons ?_ (ih _ (by simp; omega))
      intro c hc
      by_contra hnd
      obtain ⟨x, hx1, hx2⟩ := common_of_not_disj hnd
      have hsh : inRange ⟨b.addr + 2 ^ (31 - b.plen), b.plen + 1⟩ x :=
        (slicingAux_cover k _ hk (by simp; omega) x).mpr ⟨c, hc, hx2⟩
      exact not_common_of_disj (halves_disj b (by omega)) hx1 hsh

theorem slicingAux_getLast : ∀ (d : Nat) (b : Block), 1 ≤ d →
    ∃ lb, (slicingAux d b).getLast? = some lb ∧ lb.plen = b.plen + d := by
  intro d
  induction d with
  | zero => intro b h; omega
  | succ k ih =>
    intro b _
    rcases Nat.eq_zero_or_pos k with hk | hk
    · subst hk
      rw [slicingAux_one]
      exact ⟨_, rfl, rfl⟩
    · rw [slicingAux_succ k b (by omega)]
      obtain ⟨lb, hlb, hplen⟩ := ih ⟨b.addr + 2 ^ (31 - b.plen), b.plen + 1⟩ hk
      have hplen2 : lb.plen = b.plen + 1 + k := hplen
      have hlen := slicingAux_length k ⟨b.addr + 2 ^ (31 - b.plen), b.plen + 1⟩ hk
      refine ⟨lb, ?_, by omega⟩
      rcases hsl : slicingAux k ⟨b.addr + 2 ^ (31 - b.plen), b.plen + 1⟩ with _ | ⟨t0, tt⟩
      · rw [hsl] at hlen; simp at hlen
      · rw [hsl] at hlb
        rw [List.getLast?_cons_cons, hlb]

theorem slicingAux_get : ∀ (d : Nat) (b : Block), ∀ i < d,
    ∃ a, (slicingAux d b)[i]? = some ⟨a, b.plen + i + 1⟩ := by
  intro d
  induction d with
  | zero => intro b i h; omega
  | succ k ih =>
    intro b i hi
    rcases Nat.eq_zero_or_pos k with hk | hk
    · subst hk
      interval_cases i
      exact ⟨b.addr, by rw [slicingAux_one]; simp⟩
    · rw [slicingAux_succ k b (by omega)]
      match i with
      | 0 => exact ⟨b.addr, by simp⟩
      | j + 1 =>
        obtain ⟨a, ha⟩ := ih ⟨b.addr + 2 ^ (31 - b.plen), b.plen + 1⟩ j (by omega)
        refine ⟨a, ?_⟩
        rw [List.getElem?_cons_succ, ha]
        congr 2
        show b.plen + 1 + j + 1 = b.plen + (j + 1) + 1
        omega

/-! ### Ledger operation lemmas -/

theorem lookup_upsert_self (L : Ledger) (k : Block) (f : Item → Item) :
    lookupItem (upsertWith L k f) k = some (f ((lookupItem L k).getD emptyItem)) := by
  induction L with
  | nil => simp [lookupItem, upsertWith]
  | cons e t ih =>
    by_cases h : e.1 = k
    · simp [upsertWith, lookupItem, h]
    · simp [upsertWith, lookupItem, h, ih]

theorem keysOf_nil : keysOf [] = [] := rfl

theorem keysOf_cons (e : Block × Item) (t : Ledger) : keysOf (e :: t) = e.1 :: keysOf t := rfl

theorem deleteKey_cons (e : Block × Item) (t : Ledger) (k : Block) :
    deleteKey (e :: t) k = if e.1 = k then deleteKey t k else e :: deleteKey t k := by
  by_cases he : e.1 = k <;> simp [deleteKey, List.filter_cons, he]

theorem lookup_upsert_ne (L : Ledger) {k k' : Block} (f : Item → Item) (h : k' ≠ k) :
    lookupItem (upsertWith L k f) k' = lookupItem L k' := by
  induction L with
  | nil => simp [lookupItem, upsertWith, Ne.symm h]
  | cons e t ih =>
    by_cases he : e.1 = k
    · simp [upsertWith, lookupItem, he, Ne.symm h, h]
    · by_cases he' : e.1 = k'
      · simp [upsertWith, lookupItem, he, he', h]
      · simp [upsertWith, lookupItem, he, he', ih]

theorem keysOf_upsert_mem (L : Ledger) {k : Block} (f : Item → Item) (h : k ∈ keysOf L) :
    keysOf (upsertWith L k f) = keysOf L := by
  induction L with
  | nil => simp [keysOf_nil] at h
  | cons e t ih =>
    by_cases he : e.1 = k
    · simp [upsertWith, keysOf_cons, he]
    · rw [keysOf_cons] at h
      rcases List.mem_cons.mp h with rfl | ht
      · exact absurd rfl he
      · show keysOf (if (e.1 == k) = true then (k, f e.2) :: t else e :: upsertWith t k f) =
          keysOf (e :: t)
        rw [if_neg (by simp [he]), keysOf_cons, keysOf_cons, ih ht]

theorem keysOf_upsert_not_mem (L : Ledger) {k : Block} (f : Item → Item) (h : k ∉ keysOf L) :
    keysOf (upsertWith L k f) = keysOf L ++ [k] := by
  induction L with
  | nil => simp [upsertWith, keysOf_nil, keysOf_cons]
  | cons e t ih =>
    rw [keysOf_cons] at h
    simp only [List.mem_cons, not_or] at h
    have he : ¬ e.1 = k := fun hh => h.1 hh.symm
    show keysOf (if (e.1 == k) = true then (k, f e.2) :: t else e :: upsertWith t k f) =
      keysOf (e :: t) ++ [k]
    rw [if_neg (by simp [he]), keysOf_cons, keysOf_cons, ih h.2]
    rfl

theorem lookup_delete_ne (L : Ledger) {k k' : Block} (h : k' ≠ k) :
    lookupItem (deleteKey L k) k' = lookupItem L k' := by
  induction L with
  | nil => simp [lookupItem, deleteKey]
  | cons e t ih =>
    rw [deleteKey_cons]
    by_cases he : e.1 = k
    · rw [if_pos he, ih]
      have he' : ¬ e.1 = k' := by rw [he]; exact Ne.symm h
      simp [lookupItem, he']
    · rw [if_neg he]
      by_cases he' : e.1 = k'
      · simp [lookupItem, he']
      · simp [lookupItem, he', ih]

theorem keysOf_delete (L : Ledger) (k : Block) :
    keysOf (deleteKey L k) = (keysOf L).filter (fun x => !(x == k)) := by
  induction L with
  | nil => simp [keysOf_nil, deleteKey]
  | cons e t ih =>
    rw [deleteKey_cons, keysOf_cons, List.filter_cons]
    by_cases he : e.1 = k
    · simp [he, ih]
    · simp [he, ih, keysOf_cons]

theorem insertSlices_nil (rg : String) (L : Ledger) : insertSlices rg L [] = L := rfl

theorem insertSlices_cons (rg : String) (L : Ledger) (c : Block) (t : List Block) :
    insertSlices rg L (c :: t) = insertSlices rg (upsertWith L c (siblingWrite rg c)) t := rfl

theorem lookup_insertSlices_not_mem (rg : String) (chain : List Block) :
    ∀ (L : Ledger) (c : Block), c ∉ chain →
      lookupItem (insertSlices rg L chain) c = lookupItem L c := by
  induction chain with
  | nil => intro L c _; rfl
  | cons hd t ih =>
    intro L c hc
    simp only [List.mem_cons, not_or] at hc
    rw [insertSlices_cons, ih _ _ hc.2, lookup_upsert_ne _ _ hc.1]

theorem lookup_insertSlices_mem (rg : String) (chain : List Block) :
    ∀ (L : Ledger) (c : Block), c ∈ chain →
      ∃ it, lookupItem (insertSlices rg L chain) c = some it ∧
        it.availability = some ("available") ∧
        it.size = some (strLast3 (cidrString c)) ∧
        it.region = some rg := by
  induction chain with
  | nil => intro L c hc; simp at hc
  | cons hd t ih =>
    intro L c hc
    rw [insertSlices_cons]
    by_cases hct : c ∈ t
    · exact ih _ c hct
    · have hchd : c = hd := by
        rcases List.mem_cons.mp hc with h | h
        · exact h
        · exact absurd h hct
      subst hchd
      rw [lookup_insertSlices_not_mem rg t _ c hct, lookup_upsert_self]
      exact ⟨_, rfl, rfl, rfl, rfl⟩

theorem keysOf_insertSlices (rg : String) (chain : List Block) :
    ∀ (L : Ledger), (∀ c ∈ chain, c ∉ keysOf L) → chain.Nodup →
      keysOf (insertSlices rg L chain) = keysOf L ++ chain := by
  induction chain with
  | nil => intro L _ _; simp [insertSlices_nil]
  | cons hd t ih =>
    intro L hfresh hnd
    rw [insertSlices_cons, ih _ ?_ (List.Nodup.of_cons hnd)]
    · rw [keysOf_upsert_not_mem L _ (hfresh hd (List.mem_cons_self hd t))]
      simp
    · intro c hct
      rw [keysOf_upsert_not_mem L _ (hfresh hd (List.mem_cons_self hd t))]
      simp only [List.mem_append, List.mem_singleton, not_or]
      refine ⟨hfresh c (List.mem_cons_of_mem hd hct), ?_⟩
      intro hceq
      subst hceq
      exact (List.nodup_cons.mp hnd).1 hct

theorem findFreeFrom_mem (L : Ledger) (rg : String) :
    ∀ (m : Nat) (e : Block × Item), (findFreeFrom L rg m).2 = some e → e ∈ L := by
  intro m
  induction m with
  | zero =>
    intro e he
    unfold findFreeFrom at he
    rcases hs : scanForSize L (ipAllocStr 0) rg with _ | ⟨e0, rest⟩ <;> rw [hs] at he
    · simp at he
    · simp at he
      subst he
      exact List.mem_of_mem_filter (hs ▸ List.mem_cons_self e0 rest)
  | succ m ih =>
    intro e he
    unfold findFreeFrom at he
    rcases hs : scanForSize L (ipAllocStr (m + 1)) rg with _ | ⟨e0, rest⟩ <;> rw [hs] at he
    · by_cases hm : m + 1 ≤ 16
      · simp [hm] at he
      · simp [hm] at he
        exact ih e he
    · simp at he
      subst he
      exact List.mem_of_mem_filter (hs ▸ List.mem_cons_self e0 rest)

/-- A pairwise-disjoint key list gives disjointness for any two distinct
members. -/
theorem pairwise_forall_disj {l : List Block} (h : l.Pairwise rangesDisj) :
    ∀ a ∈ l, ∀ c ∈ l, a ≠ c → rangesDisj a c := by
  induction l with
  | nil => intro a ha; simp at ha
  | cons hd t ih =>
    intro a ha c hc hne
    rcases List.mem_cons.mp ha with rfl | hat
    · rcases List.mem_cons.mp hc with rfl | hct
      · exact absurd rfl hne
      · exact (List.pairwise_cons.mp h).1 c hct
    · rcases List.mem_cons.mp hc with rfl | hct
      · exact rangesDisj_symm ((List.pairwise_cons.mp h).1 a hat)
      · exact ih (List.pairwise_cons.mp h).2 a hat c hct hne

/-! ### Preservation of range disjointness by allocation runs -/

theorem pyNeg2_mem {l : List Block} {c : Block} (h : pyNeg2 l = some c) : c ∈ l := by
  unfold pyNeg2 at h
  by_cases h2 : 2 ≤ l.length
  · rw [if_pos h2] at h
    exact List.getElem?_mem h
  · rw [if_neg h2] at h
    cases h

/-- Every slice of a block lies inside the block's range. -/
theorem chain_sub_range {b : Block} {m : Nat} (hlt : b.plen < m) (h32 : m ≤ 32) :
    ∀ c ∈ cidr_slicing b m, ∀ x, inRange c x → inRange b x := by
  intro c hc x hx
  exact (slicingAux_cover (m - b.plen) b (by omega) (by omega) x).mpr ⟨c, hc, hx⟩

/-- Every slice has a strictly larger prefix length than its parent. -/
theorem chain_plen {b : Block} {m : Nat} :
    ∀ c ∈ cidr_slicing b m, b.plen + 1 ≤ c.plen ∧ c.plen ≤ m := by
  intro c hc
  have h := slicingAux_plen_mem (m - b.plen) b c hc
  omega

theorem chain_pairwise {b : Block} {m : Nat} (h32 : m ≤ 32) :
    (cidr_slicing b m).Pairwise rangesDisj := by
  by_cases hlt : b.plen < m
  · exact slicingAux_pairwise (m - b.plen) b (by omega)
  · unfold cidr_slicing
    have hz : m - b.plen = 0 := by omega
    rw [hz]
    exact List.Pairwise.nil

theorem chain_nodup {b : Block} {m : Nat} (h32 : m ≤ 32) : (cidr_slicing b m).Nodup := by
  refine (chain_pairwise h32).imp ?_
  intro x y hd he
  subst he
  exact rangesDisj_irrefl x hd

/-- In a pairwise-disjoint ledger containing the parent block, no slice of
the parent is already a ledger key. -/
theorem chain_fresh {L : Ledger} {b : Block} {m : Nat}
    (hL : LedgerDisj L) (hb : b ∈ keysOf L) (hlt : b.plen < m) (h32 : m ≤ 32) :
    ∀ c ∈ cidr_slicing b m, c ∉ keysOf L := by
  intro c hc hmem
  by_cases hcb : c = b
  · subst hcb
    have := chain_plen c hc
    omega
  · have hdisj : rangesDisj c b := pairwise_forall_disj hL c hmem b hb hcb
    have hcb' : inRange b c.addr := chain_sub_range hlt h32 c hc c.addr (inRange_self c)
    exact not_common_of_disj hdisj (inRange_self c) hcb'

/-- The slicing branch preserves pairwise disjointness of the ledger. -/
theorem splitPath_disj {L : Ledger} {b claimed : Block} {m : Nat} {rg acct cfg : String}
    {Lf : Ledger} (hL : LedgerDisj L) (hb : b ∈ keysOf L) (hlt : b.plen < m) (h32 : m ≤ 32)
    (hrun : splitPath L b m rg acct cfg = some (claimed, Lf)) : LedgerDisj Lf := by
  unfold splitPath at hrun
  split at hrun
  · cases hrun
  · rename_i cl hpy
    simp only [Option.some.injEq, Prod.mk.injEq] at hrun
    obtain ⟨hcl, hLf⟩ := hrun
    rw [hcl] at hpy hLf
    have hfresh := chain_fresh hL hb hlt h32
    have hnd := chain_nodup (b := b) (m := m) h32
    have hkeys1 : keysOf (insertSlices rg L (cidr_slicing b m)) =
        keysOf L ++ cidr_slicing b m :=
      keysOf_insertSlices rg (cidr_slicing b m) L hfresh hnd
    have hclmem : claimed ∈ cidr_slicing b m := pyNeg2_mem hpy
    have hkeys2 : keysOf (upsertWith (insertSlices rg L (cidr_slicing b m)) claimed
        (claimWrite claimed acct rg cfg)) = keysOf L ++ cidr_slicing b m := by
      rw [keysOf_upsert_mem _ _ (by rw [hkeys1]; exact List.mem_append_right _ hclmem), hkeys1]
    have hchne : ∀ c ∈ cidr_slicing b m, c ≠ b := by
      intro c hc he
      have := chain_plen c hc
      subst he
      omega
    subst hLf
    unfold LedgerDisj
    rw [keysOf_delete, hkeys2, List.filter_append]
    have hfilc : (cidr_slicing b m).filter (fun x => !(x == b)) = cidr_slicing b m := by
      apply List.filter_eq_self.mpr
      intro c hc
      simp [hchne c hc]
    rw [hfilc]
    rw [List.pairwise_append]
    refine ⟨hL.sublist (List.filter_sublist _), chain_pairwise h32, ?_⟩
    intro o ho c hc
    have ho2 := List.mem_filter.mp ho
    have hob : o ≠ b := by
      have := ho2.2
      simp at this
      exact this
    have hdob : rangesDisj o b := pairwise_forall_disj hL o ho2.1 b hb hob
    by_contra hnd2
    obtain ⟨x, hx1, hx2⟩ := common_of_not_disj hnd2
    exact not_common_of_disj hdob hx1 (chain_sub_range hlt h32 c hc x hx2)

/-- One successful automatic allocation run preserves pairwise disjointness. -/
theorem allocAuto_disj {L Lf : Ledger} {desired : Nat} {rg acct cfg : String} {cl : Block}
    (hL : LedgerDisj L) (h32 : desired ≤ 32)
    (hrun : allocAuto L desired rg acct cfg = some (cl, Lf)) : LedgerDisj Lf := by
  unfold allocAuto at hrun
  split at hrun
  · cases hrun
  · rename_i e hf
    have hbL : e.1 ∈ keysOf L :=
      List.mem_map_of_mem (fun x => x.1) (findFreeFrom_mem L rg desired e hf)
    split at hrun
    · simp only [Option.some.injEq, Prod.mk.injEq] at hrun
      rw [← hrun.2]
      unfold LedgerDisj
      rw [keysOf_upsert_mem _ _ hbL]
      exact hL
    · by_cases hlt : e.1.plen < desired
      · exact splitPath_disj hL hbL hlt h32 hrun
      · exfalso
        unfold splitPath at hrun
        have hz : desired - e.1.plen = 0 := by omega
        unfold cidr_slicing at hrun
        rw [hz] at hrun
        cases hrun

/-- A sequence of successful automatic runs preserves pairwise disjointness. -/
theorem runAll_disj : ∀ (rs : List Request) (L0 Lf : Ledger),
    LedgerDisj L0 → (∀ r ∈ rs, r.desired ≤ 32) → runAll rs L0 = some Lf →
    LedgerDisj Lf := by
  intro rs
  induction rs with
  | nil =>
    intro L0 Lf hL _ hrun
    unfold runAll at hrun
    simp at hrun
    rw [← hrun]
    exact hL
  | cons r t ih =>
    intro L0 Lf hL hsz hrun
    unfold runAll at hrun
    rcases ha : allocAuto L0 r.desired r.rg r.acct r.cfg with _ | p
    · rw [ha] at hrun; cases hrun
    · rw [ha] at hrun
      refine ih p.2 Lf ?_ (fun q hq => hsz q (List.mem_cons_of_mem r hq)) hrun
      exact allocAuto_disj hL (hsz r (List.mem_cons_self r t)) (by rw [ha])

/-! ### The stored `size` attribute -/

theorem repr_len_two : ∀ n : Nat, n < 100 → 10 ≤ n → (Nat.repr n).data.length = 2 := by
  decide

theorem strLast3_append (s t : String) (h : t.data.length = 3) : strLast3 (s ++ t) = t := by
  unfold strLast3
  rw [String.data_append]
  have hlen : (s.data ++ t.data).length - 3 = s.data.length := by
    rw [List.length_append]
    omega
  rw [hlen, List.drop_left]

/-- For two-digit prefix lengths the script's `network[-3:]` recovers exactly
the `/len` suffix of the CIDR string. -/
theorem sizeAttr_eq (b : Block) (h1 : 10 ≤ b.plen) (h2 : b.plen < 100) :
    strLast3 (cidrString b) = "/" ++ Nat.repr b.plen := by
  unfold cidrString
  rw [strLast3_append]
  rw [String.data_append]
  rw [List.length_append, repr_len_two b.plen h2 h1]
  rfl

/-! ### Claim C3 -/

/-- Claim C3: for every parent block and every target prefix length strictly
greater than the parent's prefix length (within 1-32), the list returned by
the split has address ranges whose union exactly reconstructs the parent's
address space, with no gaps and no overlaps between elements, and the final
element of the list has prefix length equal to the target. -/
theorem C3_split_correct (b : Block) (m : Nat) (hlt : b.plen < m) (h32 : m ≤ 32) :
    (∀ x, inRange b x ↔ ∃ c ∈ cidr_slicing b m, inRange c x) ∧
    (cidr_slicing b m).Pairwise rangesDisj ∧
    ∃ lb, (cidr_slicing b m).getLast? = some lb ∧ lb.plen = m := by
  refine ⟨slicingAux_cover (m - b.plen) b (by omega) (by omega), chain_pairwise h32, ?_⟩
  obtain ⟨lb, h1, h2⟩ := slicingAux_getLast (m - b.plen) b (by omega)
  exact ⟨lb, h1, by omega⟩

/-- Claim C3, witness: the split of `10.0.0.0/20` down to `/22`. -/
theorem C3_witness :
    b20.plen < 22 ∧ (22 : Nat) ≤ 32 ∧
    ((∀ x, inRange b20 x ↔ ∃ c ∈ cidr_slicing b20 22, inRange c x) ∧
     (cidr_slicing b20 22).Pairwise rangesDisj ∧
     ∃ lb, (cidr_slicing b20 22).getLast? = some lb ∧ lb.plen = 22) :=
  ⟨by decide, by decide, C3_split_correct b20 22 (by decide) (by decide)⟩

/-! ### Claim C4 -/

/-- Claim C4, counterexample: when the target prefix length equals the
parent's prefix length, `cidr_slicing` returns the empty list, not a
single-element list containing the parent. -/
theorem C4_counterexample :
    cidr_slicing ⟨167772160, 24⟩ 24 = [] ∧
    cidr_slicing ⟨167772160, 24⟩ 24 ≠ [⟨167772160, 24⟩] := by decide

/-- Claim C4, amended: when the target prefix length equals the parent
block's prefix length, the split returns the empty list (no split is
performed; the equal-size case is handled by the caller before the splitter
is invoked). -/
theorem C4_amended_theorem (b : Block) : cidr_slicing b b.plen = [] := by
  unfold cidr_slicing
  rw [Nat.sub_self]
  rfl

/-! ### Claim C2 -/

/-- Claim C2, counterexample: in the `10.0.0.0/20`, `desiredPrefixLength=22`,
`us-west-2` scenario the final ledger holds exactly one `/21` record, not
two, and the second `/21` sibling `10.0.8.0/21` was never inserted. -/
theorem C2_counterexample :
    (allocAuto scenarioLedger 22 ("us-west-2") ("006828683766") ("prod-us-west-2")).map
        (fun p => (p.2.filter (fun e => e.1.plen == 21)).length) = some 1 ∧
    (allocAuto scenarioLedger 22 ("us-west-2") ("006828683766") ("prod-us-west-2")).bind
        (fun p => lookupItem p.2 ⟨167774208, 21⟩) = none := by decide

/-- Claim C2, amended: starting from a ledger whose only `Available` block is
`10.0.0.0/20` in region `us-west-2`, a request with `desiredPrefixLength=22`
results in exactly: one sibling `/21` block (`10.0.0.0/21`) inserted as
`Available`, two `/22` halves inserted per the halving chain of which the
first (`10.0.8.0/22`) is then marked `InUse` and the second (`10.0.12.0/22`)
remains `Available`, and the record `10.0.0.0/20` deleted. -/
theorem C2_amended_theorem :
    allocAuto scenarioLedger 22 ("us-west-2") ("006828683766") ("prod-us-west-2") =
      some (⟨167774208, 22⟩,
        [(⟨167772160, 21⟩,
            ⟨some ("/21"), some ("available"), some ("us-west-2"), none, none⟩),
         (⟨167774208, 22⟩,
            ⟨some ("/22"), some ("in-use"), some ("us-west-2"),
              some ("006828683766"), some ("prod-us-west-2")⟩),
         (⟨167775232, 22⟩,
            ⟨some ("/22"), some ("available"), some ("us-west-2"), none, none⟩)]) := by
  decide

/-! ### Claim C8 -/

/-- Claim C8: the manual override path marks the supplied cidr as `in-use`
with the supplied owner, region and config tag through one unconditional
create-or-overwrite write; the resulting record (all five attributes are
set) is the same for every prior ledger state for that key, and no
pre-check of prior availability or presence is performed. -/
theorem C8_manual_override (L : Ledger) (mcidr : Block) (ipa rg acct cfg : String) :
    lookupItem (manualClaim L mcidr ipa rg acct cfg) mcidr =
      some ⟨some ipa, some ("in-use"), some rg, some acct, some cfg⟩ := by
  unfold manualClaim
  rw [lookup_upsert_self]

/-! ### Claim C9 -/

/-- Claim C9, counterexample: the size validation accepts `/10` and `/29`,
both outside 16-28 (the regular expression `^/[1-2][0-9]$` checks only the
digit shape, and the script's own error message even says `/18 - /28`). -/
theorem C9_counterexample :
    ip_re_match (ipAllocStr 10) = true ∧ ip_re_match (ipAllocStr 29) = true ∧
    ¬ (16 ≤ 10) ∧ ¬ (29 ≤ 28) := by decide

/-- Claim C9, amended: a two-digit size string `/n` is accepted by the size
validation if and only if `10 ≤ n ≤ 29` (first digit 1 or 2); sizes outside
that range are rejected before the allocation table is touched. -/
theorem C9_amended_theorem :
    ∀ n : Nat, n < 100 → (ip_re_match (ipAllocStr n) = true ↔ (10 ≤ n ∧ n ≤ 29)) := by
  decide

/-- Claim C9, witness: `/22` is accepted. -/
theorem C9_witness :
    (22 : Nat) < 100 ∧ (ip_re_match (ipAllocStr 22) = true ↔ (10 ≤ 22 ∧ 22 ≤ 29)) :=
  ⟨by decide, C9_amended_theorem 22 (by decide)⟩

/-! ### Claims C1 and C10: the split-and-commit path -/

/-- For a genuine split, `network_list[-2]` exists, it is the element at
index `length - 2`, and its prefix length is the requested netmask. -/
theorem chain_pyNeg2 {b : Block} {m : Nat} (hlt : b.plen < m) :
    ∃ claimed, pyNeg2 (cidr_slicing b m) = some claimed ∧
      (cidr_slicing b m)[(cidr_slicing b m).length - 2]? = some claimed ∧
      claimed.plen = m := by
  have hd : 1 ≤ m - b.plen := by omega
  have hlen : (cidr_slicing b m).length = (m - b.plen) + 1 :=
    slicingAux_length (m - b.plen) b hd
  obtain ⟨a, hget⟩ := slicingAux_get (m - b.plen) b ((m - b.plen) - 1) (by omega)
  have hidx : (cidr_slicing b m).length - 2 = (m - b.plen) - 1 := by
    rw [hlen]; omega
  refine ⟨⟨a, b.plen + ((m - b.plen) - 1) + 1⟩, ?_, ?_, ?_⟩
  · unfold pyNeg2
    rw [if_pos (by rw [hlen]; omega), hidx]
    exact hget
  · rw [hidx]
    exact hget
  · show b.plen + ((m - b.plen) - 1) + 1 = m
    omega

/-- Claim C1, counterexample: in the `10.0.0.0/20` to `/22` scenario the
block the run claims and marks `in-use` is `10.0.8.0/22`, which is not the
last element `10.0.12.0/22` of the split list; the last element stays
`available` in the final ledger. -/
theorem C1_counterexample :
    (allocAuto scenarioLedger 22 ("us-west-2") ("006828683766") ("prod-us-west-2")).map
        (fun p => p.1) = some ⟨167774208, 22⟩ ∧
    (cidr_slicing b20 22).getLast? = some ⟨167775232, 22⟩ ∧
    (⟨167774208, 22⟩ : Block) ≠ ⟨167775232, 22⟩ ∧
    (allocAuto scenarioLedger 22 ("us-west-2") ("006828683766") ("prod-us-west-2")).bind
        (fun p => lookupItem p.2 ⟨167775232, 22⟩) =
      some ⟨some ("/22"), some ("available"), some ("us-west-2"), none, none⟩ := by decide

/-- Claim C1, amended: for every free block whose prefix length is strictly
smaller than the requested prefix length, the split produces an ordered list
whose elements are successive halves, the exact-size block the allocation
claims is the second-to-last element (`network_list[-2]`, of prefix length
exactly the request), that element is marked `in-use`, and every other
element of the list — including the last one — is left `available`. -/
theorem C1_amended_theorem (L : Ledger) (b : Block) (m : Nat) (rg acct cfg : String)
    (hlt : b.plen < m) :
    ∃ claimed Lf,
      splitPath L b m rg acct cfg = some (claimed, Lf) ∧
      (cidr_slicing b m)[(cidr_slicing b m).length - 2]? = some claimed ∧
      claimed.plen = m ∧
      (∃ it, lookupItem Lf claimed = some it ∧ it.availability = some ("in-use")) ∧
      ∀ c ∈ cidr_slicing b m, c ≠ claimed →
        ∃ it, lookupItem Lf c = some it ∧ it.availability = some ("available") := by
  obtain ⟨claimed, hpy, hidx, hplen⟩ := chain_pyNeg2 hlt
  have hcb : claimed ≠ b := by
    intro he
    rw [he] at hplen
    omega
  refine ⟨claimed,
    deleteKey
      (upsertWith (insertSlices rg L (cidr_slicing b m)) claimed
        (claimWrite claimed acct rg cfg)) b, ?_, hidx, hplen, ?_, ?_⟩
  · unfold splitPath
    rw [hpy]
  · rw [lookup_delete_ne _ hcb, lookup_upsert_self]
    exact ⟨_, rfl, rfl⟩
  · intro c hc hne
    have hcbne : c ≠ b := by
      intro he
      have hp := chain_plen c hc
      subst he
      omega
    rw [lookup_delete_ne _ hcbne, lookup_upsert_ne _ _ hne]
    obtain ⟨it, h1, h2, _, _⟩ := lookup_insertSlices_mem rg (cidr_slicing b m) L c hc
    exact ⟨it, h1, h2⟩

/-- Claim C1, witness: the split-and-commit of `10.0.0.0/20` down to `/22`
on an otherwise empty ledger. -/
theorem C1_witness :
    b20.plen < 22 ∧
    ∃ claimed Lf,
      splitPath [] b20 22 ("us-west-2") ("006828683766") ("prod-us-west-2") =
        some (claimed, Lf) ∧
      (cidr_slicing b20 22)[(cidr_slicing b20 22).length - 2]? = some claimed ∧
      claimed.plen = 22 ∧
      (∃ it, lookupItem Lf claimed = some it ∧ it.availability = some ("in-use")) ∧
      ∀ c ∈ cidr_slicing b20 22, c ≠ claimed →
        ∃ it, lookupItem Lf c = some it ∧ it.availability = some ("available") :=
  ⟨by decide,
    C1_amended_theorem [] b20 22 ("us-west-2") ("006828683766") ("prod-us-west-2")
      (by decide)⟩

/-- Claim C10: in the slicing branch every element of the split chain —
including the block that is ultimately claimed, `network_list[-2]` — is
first upserted into the ledger as `available`, and the branch result is
obtained from that intermediate state by afterwards updating the chosen
block to `in-use` and deleting the parent; so there is an intermediate
ledger state in which the block about to be claimed is `available`. -/
theorem C10_theorem (L : Ledger) (b : Block) (m : Nat) (rg acct cfg : String)
    (hlt : b.plen < m) :
    ∃ claimed,
      pyNeg2 (cidr_slicing b m) = some claimed ∧
      claimed ∈ cidr_slicing b m ∧
      (∀ c ∈ cidr_slicing b m, ∃ it,
        lookupItem (insertSlices rg L (cidr_slicing b m)) c = some it ∧
        it.availability = some ("available")) ∧
      splitPath L b m rg acct cfg =
        some (claimed,
          deleteKey
            (upsertWith (insertSlices rg L (cidr_slicing b m)) claimed
              (claimWrite claimed acct rg cfg)) b) := by
  obtain ⟨claimed, hpy, hidx, hplen⟩ := chain_pyNeg2 hlt
  refine ⟨claimed, hpy, pyNeg2_mem hpy, ?_, ?_⟩
  · intro c hc
    obtain ⟨it, h1, h2, _, _⟩ := lookup_insertSlices_mem rg (cidr_slicing b m) L c hc
    exact ⟨it, h1, h2⟩
  · unfold splitPath
    rw [hpy]

/-- Claim C10, witness: the `10.0.0.0/20` to `/22` split on an otherwise
empty ledger. -/
theorem C10_witness :
    b20.plen < 22 ∧
    ∃ claimed,
      pyNeg2 (cidr_slicing b20 22) = some claimed ∧
      claimed ∈ cidr_slicing b20 22 ∧
      (∀ c ∈ cidr_slicing b20 22, ∃ it,
        lookupItem (insertSlices ("us-west-2") [] (cidr_slicing b20 22)) c = some it ∧
        it.availability = some ("available")) ∧
      splitPath [] b20 22 ("us-west-2") ("006828683766") ("prod-us-west-2") =
        some (claimed,
          deleteKey
            (upsertWith (insertSlices ("us-west-2") [] (cidr_slicing b20 22)) claimed
              (claimWrite claimed ("006828683766") ("us-west-2") ("prod-us-west-2"))) b20) :=
  ⟨by decide,
    C10_theorem [] b20 22 ("us-west-2") ("006828683766") ("prod-us-west-2") (by decide)⟩

/-! ### Claim C6 -/

/-- Claim C6, counterexample: the manual override write stores the requested
`ip_allocation` as the `size` attribute, which need not match the prefix
length of the written key: claiming `10.1.0.0/24` with `ip_allocation=/20`
stores `size = "/20"` under the key whose prefix length is 24. -/
theorem C6_counterexample :
    (lookupItem
        (manualClaim [] ⟨167837696, 24⟩ ("/20") ("us-west-2") ("006828683766")
          ("prod-us-west-2"))
        ⟨167837696, 24⟩).map Item.size = some (some ("/20")) ∧
    ("/20" : String) ≠ "/" ++ Nat.repr (24 : Nat) := by decide

/-- Claim C6, amended: the records written by the sibling inserts and by the
claimed-block update of the split path store a `size` attribute equal to
`/` followed by the prefix length of their own cidr key (the stored value is
the last three characters of the CIDR string, which agrees with the prefix
length whenever it has two digits); the manual override write instead stores
the caller's requested `ip_allocation`, which is not derived from the key. -/
theorem C6_amended_theorem (L : Ledger) (rg acct cfg ipa : String) (k : Block)
    (h1 : 10 ≤ k.plen) (h2 : k.plen < 100) :
    (∃ it, lookupItem (upsertWith L k (siblingWrite rg k)) k = some it ∧
      it.size = some ("/" ++ Nat.repr k.plen)) ∧
    (∃ it, lookupItem (upsertWith L k (claimWrite k acct rg cfg)) k = some it ∧
      it.size = some ("/" ++ Nat.repr k.plen)) ∧
    (∃ it, lookupItem (manualClaim L k ipa rg acct cfg) k = some it ∧
      it.size = some ipa) := by
  refine ⟨?_, ?_, ?_⟩
  · rw [lookup_upsert_self]
    refine ⟨_, rfl, ?_⟩
    show some (strLast3 (cidrString k)) = some ("/" ++ Nat.repr k.plen)
    rw [sizeAttr_eq k h1 h2]
  · rw [lookup_upsert_self]
    refine ⟨_, rfl, ?_⟩
    show some (strLast3 (cidrString k)) = some ("/" ++ Nat.repr k.plen)
    rw [sizeAttr_eq k h1 h2]
  · unfold manualClaim
    rw [lookup_upsert_self]
    exact ⟨_, rfl, rfl⟩

/-- Claim C6, witness: the split-path writes for `10.0.0.0/21` store
`size = "/21"`; the manual write stores the requested `"/20"`. -/
theorem C6_witness :
    10 ≤ (Block.mk 167772160 21).plen ∧ (Block.mk 167772160 21).plen < 100 ∧
    ((∃ it, lookupItem (upsertWith [] ⟨167772160, 21⟩
        (siblingWrite ("us-west-2") ⟨167772160, 21⟩)) ⟨167772160, 21⟩ = some it ∧
      it.size = some ("/" ++ Nat.repr (Block.mk 167772160 21).plen)) ∧
    (∃ it, lookupItem (upsertWith [] ⟨167772160, 21⟩
        (claimWrite ⟨167772160, 21⟩ ("006828683766") ("us-west-2") ("prod-us-west-2")))
        ⟨167772160, 21⟩ = some it ∧
      it.size = some ("/" ++ Nat.repr (Block.mk 167772160 21).plen)) ∧
    (∃ it, lookupItem (manualClaim [] ⟨167772160, 21⟩ ("/20") ("us-west-2")
        ("006828683766") ("prod-us-west-2")) ⟨167772160, 21⟩ = some it ∧
      it.size = some ("/20"))) :=
  ⟨by decide, by decide,
    C6_amended_theorem [] ("us-west-2") ("006828683766") ("prod-us-west-2") ("/20")
      ⟨167772160, 21⟩ (by decide) (by decide)⟩

/-! ### Claim C7 -/

theorem findFreeFrom_succ (L : Ledger) (rg : String) (m : Nat) :
    findFreeFrom L rg (m + 1) =
      match scanForSize L (ipAllocStr (m + 1)) rg with
      | e :: _ => ([m + 1], some e)
      | [] =>
        if m + 1 ≤ 16 then ([m + 1], none)
        else ((m + 1) :: (findFreeFrom L rg m).1, (findFreeFrom L rg m).2) := rfl

theorem range_map_sub_succ (m1 : Nat) (h : 16 ≤ m1) :
    (List.range (m1 + 1 - 15)).map (fun i => m1 + 1 - i) =
      (m1 + 1) :: (List.range (m1 - 15)).map (fun i => m1 - i) := by
  have hr : m1 + 1 - 15 = (m1 - 15) + 1 := by omega
  rw [hr, List.range_succ_eq_map, List.map_cons, List.map_map]
  refine congrArg₂ List.cons ?_ ?_
  · show m1 + 1 - 0 = m1 + 1
    omega
  · apply List.map_congr_left
    intro i hi
    rw [List.mem_range] at hi
    show m1 + 1 - (i + 1) = m1 - i
    omega

/-- Claim C7: against a pool in which every scan comes back empty, the
widening search terminates and fails (pool exhausted), scanning the netmasks
one decrement at a time from the requested size down to exactly the floor
of 16. -/
theorem C7_widening (L : Ledger) (rg : String) :
    ∀ m : Nat, 16 ≤ m → (∀ sz : String, scanForSize L sz rg = []) →
      findFreeFrom L rg m = ((List.range (m - 15)).map (fun i => m - i), none) := by
  intro m
  induction m using Nat.strong_induction_on with
  | _ m ih =>
    intro h16 hempty
    obtain ⟨m1, rfl⟩ : ∃ m1, m = m1 + 1 := ⟨m - 1, by omega⟩
    rw [findFreeFrom_succ, hempty]
    show (if m1 + 1 ≤ 16 then ([m1 + 1], none)
          else ((m1 + 1) :: (findFreeFrom L rg m1).1, (findFreeFrom L rg m1).2)) =
      ((List.range (m1 + 1 - 15)).map (fun i => m1 + 1 - i), none)
    by_cases hle : m1 + 1 ≤ 16
    · have hm : m1 = 15 := by omega
      subst hm
      rw [if_pos hle]
      decide
    · rw [if_neg hle, ih m1 (by omega) (by omega) hempty]
      show ((m1 + 1) :: (List.range (m1 - 15)).map (fun i => m1 - i),
          (none : Option (Block × Item))) =
        ((List.range (m1 + 1 - 15)).map (fun i => m1 + 1 - i), none)
      rw [range_map_sub_succ m1 (by omega)]

/-- Claim C7, witness: an empty pool for `eu-west-1` and a `/24` request
scan `/24` down to `/16` and fail. -/
theorem C7_witness :
    (16 : Nat) ≤ 24 ∧ (∀ sz : String, scanForSize [] sz ("eu-west-1") = []) ∧
    findFreeFrom [] ("eu-west-1") 24 =
      ((List.range (24 - 15)).map (fun i => 24 - i), none) :=
  ⟨by decide, fun _ => rfl, C7_widening [] ("eu-west-1") 24 (by decide) (fun _ => rfl)⟩

/-! ### Claim C5 -/

/-- Claim C5: for every sequence of successful automatic allocations run one
after the other against an initially pairwise-disjoint pool, after each
completed run no two ledger records cover overlapping ranges, and in
particular no two distinct records marked `in-use` overlap. -/
theorem C5_disjointness (rs : List Request) (L0 : Ledger)
    (hd : LedgerDisj L0) (hsz : ∀ r ∈ rs, r.desired ≤ 32) :
    ∀ (i : Nat) (Lf : Ledger), runAll (rs.take i) L0 = some Lf →
      LedgerDisj Lf ∧
      ∀ e1 ∈ Lf, ∀ e2 ∈ Lf, e1.2.availability = some ("in-use") →
        e2.2.availability = some ("in-use") → e1.1 ≠ e2.1 → rangesDisj e1.1 e2.1 := by
  intro i Lf hrun
  have hLf : LedgerDisj Lf :=
    runAll_disj (rs.take i) L0 Lf hd (fun r hr => hsz r (List.take_subset i rs hr)) hrun
  refine ⟨hLf, ?_⟩
  intro e1 he1 e2 he2 _ _ hne
  exact pairwise_forall_disj hLf e1.1 (List.mem_map_of_mem _ he1) e2.1
    (List.mem_map_of_mem _ he2) hne

/-- Claim C5, witness: the single-run `10.0.0.0/20` to `/22` scenario. -/
theorem C5_witness :
    LedgerDisj scenarioLedger ∧
    (∀ r ∈ [Request.mk 22 ("us-west-2") ("006828683766") ("prod-us-west-2")],
      r.desired ≤ 32) ∧
    (LedgerDisj
        [(⟨167772160, 21⟩,
            ⟨some ("/21"), some ("available"), some ("us-west-2"), none, none⟩),
         (⟨167774208, 22⟩,
            ⟨some ("/22"), some ("in-use"), some ("us-west-2"),
              some ("006828683766"), some ("prod-us-west-2")⟩),
         (⟨167775232, 22⟩,
            ⟨some ("/22"), some ("available"), some ("us-west-2"), none, none⟩)] ∧
      ∀ e1 ∈ ([(⟨167772160, 21⟩,
            ⟨some ("/21"), some ("available"), some ("us-west-2"), none, none⟩),
         (⟨167774208, 22⟩,
            ⟨some ("/22"), some ("in-use"), some ("us-west-2"),
              some ("006828683766"), some ("prod-us-west-2")⟩),
         (⟨167775232, 22⟩,
            ⟨some ("/22"), some ("available"), some ("us-west-2"), none, none⟩)] : Ledger),
        ∀ e2 ∈ ([(⟨167772160, 21⟩,
            ⟨some ("/21"), some ("available"), some ("us-west-2"), none, none⟩),
         (⟨167774208, 22⟩,
            ⟨some ("/22"), some ("in-use"), some ("us-west-2"),
              some ("006828683766"), some ("prod-us-west-2")⟩),
         (⟨167775232, 22⟩,
            ⟨some ("/22"), some ("available"), some ("us-west-2"), none, none⟩)] : Ledger),
          e1.2.availability = some ("in-use") → e2.2.availability = some ("in-use") →
          e1.1 ≠ e2.1 → rangesDisj e1.1 e2.1) :=
  ⟨by decide, by decide,
    C5_disjointness [Request.mk 22 ("us-west-2") ("006828683766") ("prod-us-west-2")]
      scenarioLedger (by decide) (by decide) 1 _ (by decide)⟩

end IPAM
